import Mathlib

/-!
Shallow embedding of the chunked diff-and-apply pipeline of the cloner
repository (Go package clone): row streams and the shard reject filter,
the chunk WHERE-clause builders of both source revisions, the diff
batchers, the writes-enqueued counter updates, and the error handling
and channel-closing control flow of the table supervisor.
-/

namespace Cloner

/-- Table descriptor (Go struct Table). Name, ColumnList and IDColumn are the
fields the embedded functions read. -/
structure Table where
  name : String
  columnList : String
  idColumn : String
  deriving DecidableEq, Repr

/-- Row (Go struct Row, part_000, the superset revision): carries its table,
the primary key ID and the sharding key ShardingID. The Data column values are
not modelled; no embedded claim depends on them. -/
structure Row where
  table : Table
  id : Int
  shardingID : Int
  deriving DecidableEq, Repr

/-- KeyRange (vitess topodata.KeyRange): a half-open interval of keyspace IDs
given by byte strings. An absent bound is represented by the empty list. The
field stop stands for the Go field End. -/
structure KeyRange where
  start : List Nat
  stop : List Nat
  deriving DecidableEq, Repr

/-- Modelled from the spec: bytes.Compare, the lexicographic three-way
comparison on byte strings used by the external key.KeyRangeContains. -/
def bytesCompare : List Nat → List Nat → Int
  | [], [] => 0
  | [], _ :: _ => -1
  | _ :: _, [] => 1
  | a :: as, b :: bs => if a < b then -1 else if b < a then 1 else bytesCompare as bs

/-- Modelled from the spec: the external vitess function key.KeyRangeContains.
The containment rule is half-open, inclusive start and exclusive end; an empty
end bound means unbounded above, so the range with both bounds empty contains
every keyspace ID. -/
def KeyRangeContains (keyRange : KeyRange) (id : List Nat) : Bool :=
  decide (bytesCompare keyRange.start id ≤ 0)
    && (decide (keyRange.stop.length = 0) || decide (bytesCompare id keyRange.stop < 0))

/-- The Go conversion uint64(shardingValue) applied to an int64 value. -/
def toUint64 (v : Int) : Nat := (v % ((2 : Int) ^ 64)).toNat

/-- InShard (part_000): a 64-bit id is in the shard iff some key range of the
filter contains the keyspace ID obtained by hashing the id through vhash.
Modelled from the spec: vhash is defined outside the given sources and the spec
fixes only that it is a pure function from the sharding key to keyspace ID
bytes, so it is taken as a parameter. -/
def InShard (vhash : Nat → List Nat) (id : Nat) (shard : List KeyRange) : Bool :=
  shard.any (fun keyRange => KeyRangeContains keyRange (vhash id))

/-- One call of rejectStream.Next (part_000): skip rows of the source stream
while the reject predicate holds; return the first admitted row together with
the rest of the stream, or none when the stream is exhausted. -/
def rejectStreamNext (reject : Row → Bool) : List Row → Option (Row × List Row)
  | [] => none
  | r :: rs => if reject r then rejectStreamNext reject rs else some (r, rs)

/-- The sequence of rows produced by calling rejectStream.Next until it returns
none, that is, the whole output of the wrapped stream. -/
def readAllReject (reject : Row → Bool) : List Row → List Row
  | [] => []
  | r :: rs => if reject r then readAllReject reject rs else r :: readAllReject reject rs

/-- filterStreamByShard (part_000): wrap the stream with a rejector dropping
every row whose sharding id, converted to uint64 and hashed, is not InShard of
the target filter. The table argument is unused, as in the source. -/
def filterStreamByShard (vhash : Nat → List Nat) (stream : List Row) (table : Table)
    (targetFilter : List KeyRange) : List Row :=
  readAllReject (fun row => !InShard vhash (toUint64 row.shardingID) targetFilter) stream

theorem readAllReject_eq_step (reject : Row → Bool) (rows : List Row) :
    readAllReject reject rows
      = match rejectStreamNext reject rows with
        | none => []
        | some (r, rest) => r :: readAllReject reject rest := by
  induction rows with
  | nil => rfl
  | cons r rs ih =>
    by_cases h : reject r
    · simp only [readAllReject, rejectStreamNext, h, if_pos]
      exact ih
    · simp [readAllReject, rejectStreamNext, h]

theorem readAllReject_eq_filter (reject : Row → Bool) (rows : List Row) :
    readAllReject reject rows = rows.filter (fun r => !reject r) := by
  induction rows with
  | nil => rfl
  | cons r rs ih =>
    by_cases h : reject r
    · simp [readAllReject, List.filter_cons, h, ih]
    · simp [readAllReject, List.filter_cons, h, ih]

theorem filterStreamByShard_eq_filter (vhash : Nat → List Nat)
    (stream : List Row) (table : Table) (targetFilter : List KeyRange) :
    filterStreamByShard vhash stream table targetFilter
      = stream.filter (fun row => InShard vhash (toUint64 row.shardingID) targetFilter) := by
  rw [filterStreamByShard, readAllReject_eq_filter]
  simp only [Bool.not_not]

/-- C1: the shard-filtered stream yields exactly the subsequence, in original
order, of rows of the underlying stream whose ShardingID, hashed through vhash
to a keyspace ID, lies in at least one key range of the target filter under the
half-open containment rule; every other row is dropped. -/
theorem filterStreamByShard_yields_inshard_subsequence (vhash : Nat → List Nat)
    (stream : List Row) (table : Table) (targetFilter : List KeyRange) :
    filterStreamByShard vhash stream table targetFilter
        = stream.filter (fun row => InShard vhash (toUint64 row.shardingID) targetFilter)
      ∧ List.Sublist (filterStreamByShard vhash stream table targetFilter) stream := by
  have h := filterStreamByShard_eq_filter vhash stream table targetFilter
  exact ⟨h, h ▸ List.filter_sublist stream⟩

/-- C10: with an empty key-range filter, InShard is false for every id, and
the shard filter rejects every row of the source stream. -/
theorem InShard_empty_filter_rejects_all (vhash : Nat → List Nat) (id : Nat)
    (stream : List Row) (table : Table) :
    InShard vhash id [] = false ∧ filterStreamByShard vhash stream table [] = [] := by
  constructor
  · rfl
  · rw [filterStreamByShard_eq_filter vhash stream table []]
    simp [InShard]

/-- Chunk (Go struct Chunk, fields as read by StreamChunk and chunkWhere): a
half-open primary-key range over one table with the two flags First and Last.
The field stop stands for the Go field End. -/
structure Chunk where
  table : Table
  start : Int
  stop : Int
  first : Bool
  last : Bool
  deriving DecidableEq, Repr

/-- chunkWhere (part_001): build the WHERE clause for a chunk. A chunk with
both flags set is the full table and contributes no primary-key clause; a
first chunk contributes id less than End; a last chunk contributes id at least
Start; an interior chunk contributes both bounds. -/
def chunkWhere (chunk : Chunk) (extraWhereClause : String) : String :=
  let clauses0 : List String :=
    if extraWhereClause ≠ "" then ["(" ++ extraWhereClause ++ ")"] else []
  let clauses : List String :=
    if chunk.first && chunk.last then clauses0
    else if chunk.first then
      clauses0 ++ [chunk.table.idColumn ++ " < " ++ toString chunk.stop]
    else if chunk.last then
      clauses0 ++ [chunk.table.idColumn ++ " >= " ++ toString chunk.start]
    else
      clauses0 ++ [chunk.table.idColumn ++ " >= " ++ toString chunk.start,
        chunk.table.idColumn ++ " < " ++ toString chunk.stop]
  if clauses.length = 0 then "" else "where " ++ String.intercalate " and " clauses

/-- StreamChunk (part_001): the SELECT statement it issues for a chunk, built
around chunkWhere. -/
def StreamChunkStmt (chunk : Chunk) (hint : String) (extraWhereClause : String) : String :=
  "select " ++ chunk.table.columnList ++ " " ++ hint ++ " from " ++ chunk.table.name
    ++ " " ++ chunkWhere chunk extraWhereClause
    ++ " order by " ++ chunk.table.idColumn ++ " asc"

/-- StreamChunk (part_000): the SELECT statement it issues for a chunk together
with the bind arguments, following its branch order: the First branch is taken
whenever First is set, also when Last is set as well. -/
def StreamChunkStmt_v0 (chunk : Chunk) : String × List Int :=
  if chunk.first then
    ("select " ++ chunk.table.columnList ++ " from " ++ chunk.table.name
       ++ " where " ++ chunk.table.idColumn ++ " < ? order by "
       ++ chunk.table.idColumn ++ " asc", [chunk.stop])
  else if chunk.last then
    ("select " ++ chunk.table.columnList ++ " from " ++ chunk.table.name
       ++ " where " ++ chunk.table.idColumn ++ " >= ? order by "
       ++ chunk.table.idColumn ++ " asc", [chunk.start])
  else
    ("select " ++ chunk.table.columnList ++ " from " ++ chunk.table.name
       ++ " where " ++ chunk.table.idColumn ++ " >= ? and "
       ++ chunk.table.idColumn ++ " < ? order by "
       ++ chunk.table.idColumn ++ " asc", [chunk.start, chunk.stop])

/-- The customers table of the test schema, used for concrete evaluations. -/
def customers : Table := ⟨"customers", "id,name", "id"⟩

/-- The chunk covering a whole table: both flags set; Start and End are left at
their zero values as for an empty table. -/
def fullTableChunk : Chunk := ⟨customers, 0, 0, true, true⟩

/-- C3: at a chunk with both First and Last set, the part_001 builder
chunkWhere imposes no primary-key predicate, but the part_000 builder
StreamChunk takes its First branch and issues a statement with the predicate
id less than End, binding the zero value End, so it does not read the entire
table. -/
theorem streamChunk_first_last_divergence :
    chunkWhere fullTableChunk "" = ""
      ∧ StreamChunkStmt fullTableChunk "" "" = "select id,name  from customers  order by id asc"
      ∧ StreamChunkStmt_v0 fullTableChunk
          = ("select id,name from customers where id < ? order by id asc", [0])
      ∧ (StreamChunkStmt_v0 fullTableChunk).2 ≠ [] := by
  refine ⟨rfl, rfl, rfl, by decide⟩

/-- The predicate on primary keys denoted by the WHERE clause that chunkWhere
builds for a chunk, branch for branch: no constraint for a full-table chunk,
id less than End for a first chunk, id at least Start for a last chunk, and
both bounds for an interior chunk. For chunks with at most one flag set this
is also the predicate bound by StreamChunk of part_000. -/
def chunkPred (chunk : Chunk) (x : Int) : Bool :=
  if chunk.first && chunk.last then true
  else if chunk.first then decide (x < chunk.stop)
  else if chunk.last then decide (chunk.start ≤ x)
  else decide (chunk.start ≤ x) && decide (x < chunk.stop)

/-- The chunks after the first one, sharing boundaries: interior chunks from
prev to each next boundary, and a final last chunk from the final boundary. -/
def tailChunks (t : Table) (prev : Int) : List Int → List Chunk
  | [] => [⟨t, prev, 0, false, true⟩]
  | e :: es => ⟨t, prev, e, false, false⟩ :: tailChunks t e es

/-- A boundary-sharing chunk sequence for one table: a first chunk up to e,
then interior chunks between consecutive boundaries, then a last chunk. -/
def chunkSeq (t : Table) (e : Int) (es : List Int) : List Chunk :=
  ⟨t, 0, e, true, false⟩ :: tailChunks t e es

/-- Two chunks are disjoint when no id satisfies both of their predicates. -/
def chunkDisj (c d : Chunk) : Prop := ∀ x : Int, ¬(chunkPred c x = true ∧ chunkPred d x = true)

theorem tailChunks_lower_bound (t : Table) :
    ∀ (es : List Int) (prev : Int), List.Chain (· ≤ ·) prev es →
      ∀ c ∈ tailChunks t prev es, ∀ x : Int, chunkPred c x = true → prev ≤ x := by
  intro es
  induction es with
  | nil =>
    intro prev _ c hc x hx
    simp only [tailChunks, List.mem_singleton] at hc
    subst hc
    simpa [chunkPred] using hx
  | cons e es ih =>
    intro prev hchain c hc x hx
    rw [List.chain_cons] at hchain
    simp only [tailChunks, List.mem_cons] at hc
    rcases hc with rfl | hc
    · simp only [chunkPred] at hx
      simp at hx
      exact hx.1
    · exact le_trans hchain.1 (ih e hchain.2 c hc x hx)

theorem tailChunks_cover (t : Table) :
    ∀ (es : List Int) (prev : Int) (x : Int), prev ≤ x →
      ∃ c ∈ tailChunks t prev es, chunkPred c x = true := by
  intro es
  induction es with
  | nil =>
    intro prev x hx
    refine ⟨⟨t, prev, 0, false, true⟩, by simp [tailChunks], ?_⟩
    simpa [chunkPred] using hx
  | cons e es ih =>
    intro prev x hx
    by_cases hlt : x < e
    · refine ⟨⟨t, prev, e, false, false⟩, by simp [tailChunks], ?_⟩
      simp [chunkPred]
      exact ⟨hx, hlt⟩
    · obtain ⟨c, hc, hcp⟩ := ih e x (le_of_not_lt hlt)
      exact ⟨c, List.mem_cons_of_mem _ hc, hcp⟩

theorem tailChunks_pairwise (t : Table) :
    ∀ (es : List Int) (prev : Int), List.Chain (· ≤ ·) prev es →
      List.Pairwise chunkDisj (tailChunks t prev es) := by
  intro es
  induction es with
  | nil => intro prev _; simp [tailChunks, List.pairwise_singleton]
  | cons e es ih =>
    intro prev hchain
    rw [List.chain_cons] at hchain
    rw [tailChunks]
    refine List.pairwise_cons.mpr ⟨?_, ih e hchain.2⟩
    intro c hc x hx
    obtain ⟨hx1, hx2⟩ := hx
    have h1 : x < e := by
      simp only [chunkPred] at hx1
      simp at hx1
      exact hx1.2
    have h2 : e ≤ x := tailChunks_lower_bound t es e hchain.2 c hc x hx2
    exact absurd h2 (not_le_of_lt h1)

/-- C8: for a boundary-sharing chunk sequence with nondecreasing boundaries,
the WHERE predicates of the chunks are pairwise disjoint and their union
covers every int64 id, including the maximum int64 value. -/
theorem chunkSeq_partition (t : Table) (e : Int) (es : List Int)
    (hchain : List.Chain (· ≤ ·) e es) :
    List.Pairwise chunkDisj (chunkSeq t e es)
      ∧ (∀ x : Int, ∃ c ∈ chunkSeq t e es, chunkPred c x = true)
      ∧ (∃ c ∈ chunkSeq t e es, chunkPred c ((2 : Int) ^ 63 - 1) = true) := by
  have cover : ∀ x : Int, ∃ c ∈ chunkSeq t e es, chunkPred c x = true := by
    intro x
    by_cases hxe : x < e
    · refine ⟨⟨t, 0, e, true, false⟩, List.mem_cons_self _ _, ?_⟩
      simpa [chunkPred] using hxe
    · obtain ⟨c, hc, hcp⟩ := tailChunks_cover t es e x (le_of_not_lt hxe)
      exact ⟨c, List.mem_cons_of_mem _ hc, hcp⟩
  refine ⟨?_, cover, cover _⟩
  rw [chunkSeq]
  refine List.pairwise_cons.mpr ⟨?_, tailChunks_pairwise t es e hchain⟩
  intro c hc x hx
  obtain ⟨hx1, hx2⟩ := hx
  have h1 : x < e := by simpa [chunkPred] using hx1
  have h2 : e ≤ x := tailChunks_lower_bound t es e hchain c hc x hx2
  exact absurd h2 (not_le_of_lt h1)

theorem chunkSeq_partition_witness :
    List.Chain (· ≤ ·) (3 : Int) [5]
      ∧ (List.Pairwise chunkDisj (chunkSeq customers 3 [5])
          ∧ (∀ x : Int, ∃ c ∈ chunkSeq customers 3 [5], chunkPred c x = true)
          ∧ (∃ c ∈ chunkSeq customers 3 [5], chunkPred c ((2 : Int) ^ 63 - 1) = true)) :=
  ⟨List.Chain.cons (by decide) List.Chain.nil,
    chunkSeq_partition customers 3 [5] (List.Chain.cons (by decide) List.Chain.nil)⟩

/-- DiffType (Go): the kind of edit a diff carries. -/
inductive DiffType where
  | Insert
  | Update
  | Delete
  deriving DecidableEq, Repr

/-- Diff (Go struct Diff): a type tag and the row to apply. -/
structure Diff where
  ty : DiffType
  row : Row
  deriving DecidableEq, Repr

/-- Batch (Go struct Batch): Type, Table and Rows. -/
structure Batch where
  ty : DiffType
  table : Table
  rows : List Row
  deriving DecidableEq, Repr

/-- One observable step of the batcher select loop: either a diff arrives on
the input channel, or context cancellation is observed. The end of the event
list stands for the input channel being closed. Every interleaving of the Go
select corresponds to one event sequence. -/
inductive BEvent where
  | diff (d : Diff)
  | cancel
  deriving DecidableEq, Repr

/-- Lookup in a Go map modelled as an association list. -/
def alookup {κ α : Type} [DecidableEq κ] (k : κ) : List (κ × α) → Option α
  | [] => none
  | kb :: st => if kb.1 = k then some kb.2 else alookup k st

/-- Store in a Go map modelled as an association list: replace the first
binding of the key, or append a new binding. -/
def aset {κ α : Type} [DecidableEq κ] (k : κ) (v : α) : List (κ × α) → List (κ × α)
  | [] => [(k, v)]
  | kb :: st => if kb.1 = k then (k, v) :: st else kb :: aset k v st

/-- The final loop of both batchers: send every batch still holding rows. -/
def flushNonEmpty {κ : Type} (st : List (κ × Batch)) : List Batch :=
  (st.map Prod.snd).filter (fun b => decide (0 < b.rows.length))

/-- The open batch BatchTableWrites reads for a diff: the stored batch for the
diff type, or a fresh batch with that type and the row table and no rows. -/
def openBatch (st : List (DiffType × Batch)) (d : Diff) : Batch :=
  (alookup d.ty st).getD ⟨d.ty, d.row.table, []⟩

/-- BatchTableWrites (batcher.go): consume diffs for a single table, keeping
one open batch per type; append each diff row to the open batch of its type,
emit the batch once it reaches batchSize rows and clear it; on input close,
emit every batch still holding rows; on cancellation, return at once without
emitting anything further. -/
def BatchTableWritesAux (batchSize : Nat) : List BEvent → List (DiffType × Batch) → List Batch
  | [], st => flushNonEmpty st
  | BEvent.cancel :: _, _ => []
  | BEvent.diff d :: rest, st =>
    if batchSize ≤ ((openBatch st d).rows ++ [d.row]).length then
      { openBatch st d with rows := (openBatch st d).rows ++ [d.row] }
        :: BatchTableWritesAux batchSize rest (aset d.ty { openBatch st d with rows := [] } st)
    else
      BatchTableWritesAux batchSize rest
        (aset d.ty { openBatch st d with rows := (openBatch st d).rows ++ [d.row] } st)

/-- BatchTableWrites run from the empty state. -/
def BatchTableWrites (batchSize : Nat) (events : List BEvent) : List Batch :=
  BatchTableWritesAux batchSize events []

/-- The open batch BatchWrites reads for a diff, keyed by type and table name. -/
def openBatchW (st : List ((DiffType × String) × Batch)) (d : Diff) : Batch :=
  (alookup (d.ty, d.row.table.name) st).getD ⟨d.ty, d.row.table, []⟩

/-- BatchWrites (batcher.go): consume diffs for many tables, keeping one open
batch per type and table name; emit a batch once it reaches batchSize rows; on
input close, and also after observing cancellation, emit every batch still
holding rows. -/
def BatchWritesAux (batchSize : Nat) :
    List BEvent → List ((DiffType × String) × Batch) → List Batch
  | [], st => flushNonEmpty st
  | BEvent.cancel :: _, st => flushNonEmpty st
  | BEvent.diff d :: rest, st =>
    if batchSize ≤ ((openBatchW st d).rows ++ [d.row]).length then
      { openBatchW st d with rows := (openBatchW st d).rows ++ [d.row] }
        :: BatchWritesAux batchSize rest
            (aset (d.ty, d.row.table.name) { openBatchW st d with rows := [] } st)
    else
      BatchWritesAux batchSize rest
        (aset (d.ty, d.row.table.name)
          { openBatchW st d with rows := (openBatchW st d).rows ++ [d.row] } st)

/-- BatchWrites run from the empty state. -/
def BatchWrites (batchSize : Nat) (events : List BEvent) : List Batch :=
  BatchWritesAux batchSize events []

theorem alookup_mem {κ α : Type} [DecidableEq κ] {k : κ} {v : α} :
    ∀ {st : List (κ × α)}, alookup k st = some v → (k, v) ∈ st := by
  intro st
  induction st with
  | nil => intro h; simp [alookup] at h
  | cons kb st ih =>
    intro h
    rw [alookup] at h
    by_cases hk : kb.1 = k
    · rw [if_pos hk] at h
      injection h with hv
      have hkb : kb = (k, v) := Prod.ext hk hv
      rw [← hkb]
      exact List.mem_cons_self _ _
    · rw [if_neg hk] at h
      exact List.mem_cons_of_mem _ (ih h)

theorem mem_aset {κ α : Type} [DecidableEq κ] {k : κ} {v : α} {kb : κ × α} :
    ∀ {st : List (κ × α)}, kb ∈ aset k v st → kb = (k, v) ∨ kb ∈ st := by
  intro st
  induction st with
  | nil =>
    intro h
    rw [aset, List.mem_singleton] at h
    exact Or.inl h
  | cons kb0 st ih =>
    intro h
    rw [aset] at h
    by_cases hk : kb0.1 = k
    · rw [if_pos hk] at h
      rcases List.mem_cons.mp h with h | h
      · exact Or.inl h
      · exact Or.inr (List.mem_cons_of_mem _ h)
    · rw [if_neg hk] at h
      rcases List.mem_cons.mp h with h | h
      · exact Or.inr (h ▸ List.mem_cons_self _ _)
      · rcases ih h with h | h
        · exact Or.inl h
        · exact Or.inr (List.mem_cons_of_mem _ h)

theorem mem_flushNonEmpty {κ : Type} {st : List (κ × Batch)} {b : Batch}
    (hb : b ∈ flushNonEmpty st) : (∃ kb ∈ st, kb.2 = b) ∧ 0 < b.rows.length := by
  rw [flushNonEmpty, List.mem_filter] at hb
  obtain ⟨hmem, hlen⟩ := hb
  obtain ⟨kb, hkb, hkb2⟩ := List.mem_map.mp hmem
  exact ⟨⟨kb, hkb, hkb2⟩, of_decide_eq_true hlen⟩

/-- A batch is well formed for a diff property P: non-empty, within the size
bound, every row comes from a diff of the batch type satisfying P, and the
batch table comes from some such diff as well. -/
def GoodBatch (P : Diff → Prop) (bs : Nat) (b : Batch) : Prop :=
  1 ≤ b.rows.length ∧ b.rows.length ≤ bs
    ∧ (∀ r ∈ b.rows, P ⟨b.ty, r⟩)
    ∧ ∃ d : Diff, P d ∧ d.ty = b.ty ∧ d.row.table = b.table

/-- Invariant of the BatchTableWrites state: every stored batch carries the
type it is keyed by, is strictly below the size bound, and its rows and table
come from P diffs of that type. -/
def TStOK (P : Diff → Prop) (bs : Nat) (st : List (DiffType × Batch)) : Prop :=
  ∀ kb ∈ st, kb.2.ty = kb.1
    ∧ kb.2.rows.length < bs
    ∧ (∀ r ∈ kb.2.rows, P ⟨kb.1, r⟩)
    ∧ ∃ d : Diff, P d ∧ d.ty = kb.1 ∧ d.row.table = kb.2.table

theorem batchTableWritesAux_good (P : Diff → Prop) (bs : Nat) (hbs : 1 ≤ bs) :
    ∀ (events : List BEvent) (st : List (DiffType × Batch)),
      (∀ d : Diff, BEvent.diff d ∈ events → P d) → TStOK P bs st →
      ∀ b ∈ BatchTableWritesAux bs events st, GoodBatch P bs b := by
  intro events
  induction events with
  | nil =>
    intro st _ hst b hb
    simp only [BatchTableWritesAux] at hb
    obtain ⟨⟨kb, hkb, hkb2⟩, hpos⟩ := mem_flushNonEmpty hb
    obtain ⟨hty, hlen, hrows, hprov⟩ := hst kb hkb
    subst hkb2
    refine ⟨hpos, le_of_lt hlen, ?_, ?_⟩
    · intro r hr
      rw [hty]
      exact hrows r hr
    · obtain ⟨d2, h1, h2, h3⟩ := hprov
      exact ⟨d2, h1, h2.trans hty.symm, h3⟩
  | cons ev rest ih =>
    intro st hev hst b hb
    cases ev with
    | cancel =>
      simp only [BatchTableWritesAux] at hb
      exact absurd hb (List.not_mem_nil b)
    | diff d =>
      have hPd : P d := hev d (List.mem_cons_self _ _)
      have hev2 : ∀ d2 : Diff, BEvent.diff d2 ∈ rest → P d2 :=
        fun d2 h2 => hev d2 (List.mem_cons_of_mem _ h2)
      have hopen : (openBatch st d).ty = d.ty
          ∧ (openBatch st d).rows.length < bs
          ∧ (∀ r ∈ (openBatch st d).rows, P ⟨d.ty, r⟩)
          ∧ ∃ d2 : Diff, P d2 ∧ d2.ty = d.ty ∧ d2.row.table = (openBatch st d).table := by
        cases halo : alookup d.ty st with
        | none =>
          have hob : openBatch st d = ⟨d.ty, d.row.table, []⟩ := by
            simp only [openBatch, halo, Option.getD_none]
          rw [hob]
          exact ⟨rfl, lt_of_lt_of_le Nat.zero_lt_one hbs, by simp, ⟨d, hPd, rfl, rfl⟩⟩
        | some b0 =>
          have hob : openBatch st d = b0 := by
            simp only [openBatch, halo, Option.getD_some]
          rw [hob]
          exact hst (d.ty, b0) (alookup_mem halo)
      obtain ⟨hoty, holen, horows, hoprov⟩ := hopen
      by_cases hfull : bs ≤ ((openBatch st d).rows ++ [d.row]).length
      · rw [BatchTableWritesAux, if_pos hfull] at hb
        rcases List.mem_cons.mp hb with hbeq | hb
        · subst hbeq
          refine ⟨?_, ?_, ?_, ?_⟩
          · simp
          · simp only [List.length_append, List.length_cons, List.length_nil]
            omega
          · intro r hr
            show P ⟨(openBatch st d).ty, r⟩
            rw [hoty]
            rcases List.mem_append.mp hr with hr | hr
            · exact horows r hr
            · rw [List.mem_singleton] at hr
              subst hr
              exact hPd
          · obtain ⟨d2, h1, h2, h3⟩ := hoprov
            exact ⟨d2, h1, h2.trans hoty.symm, h3⟩
        · refine ih _ hev2 ?_ b hb
          intro kb hkb
          rcases mem_aset hkb with hkbeq | hkb2
          · subst hkbeq
            refine ⟨hoty, lt_of_lt_of_le Nat.zero_lt_one hbs, by simp, ?_⟩
            obtain ⟨d2, h1, h2, h3⟩ := hoprov
            exact ⟨d2, h1, h2, h3⟩
          · exact hst kb hkb2
      · rw [BatchTableWritesAux, if_neg hfull] at hb
        refine ih _ hev2 ?_ b hb
        intro kb hkb
        rcases mem_aset hkb with hkbeq | hkb2
        · subst hkbeq
          refine ⟨hoty, ?_, ?_, ?_⟩
          · simp only [List.length_append, List.length_cons, List.length_nil] at hfull ⊢
            omega
          · intro r hr
            rcases List.mem_append.mp hr with hr | hr
            · exact horows r hr
            · rw [List.mem_singleton] at hr
              subst hr
              exact hPd
          · obtain ⟨d2, h1, h2, h3⟩ := hoprov
            exact ⟨d2, h1, h2, h3⟩
        · exact hst kb hkb2

/-- A batch is well formed for BatchWrites: non-empty, within the size bound,
and every row comes from a diff of the batch type satisfying P. -/
def GoodBatchW (P : Diff → Prop) (bs : Nat) (b : Batch) : Prop :=
  1 ≤ b.rows.length ∧ b.rows.length ≤ bs ∧ ∀ r ∈ b.rows, P ⟨b.ty, r⟩

/-- Invariant of the BatchWrites state, keyed by type and table name. -/
def WStOK (P : Diff → Prop) (bs : Nat) (st : List ((DiffType × String) × Batch)) : Prop :=
  ∀ kb ∈ st, kb.2.ty = kb.1.1
    ∧ kb.2.rows.length < bs
    ∧ ∀ r ∈ kb.2.rows, P ⟨kb.1.1, r⟩

theorem batchWritesAux_good (P : Diff → Prop) (bs : Nat) (hbs : 1 ≤ bs) :
    ∀ (events : List BEvent) (st : List ((DiffType × String) × Batch)),
      (∀ d : Diff, BEvent.diff d ∈ events → P d) → WStOK P bs st →
      ∀ b ∈ BatchWritesAux bs events st, GoodBatchW P bs b := by
  intro events
  induction events with
  | nil =>
    intro st _ hst b hb
    simp only [BatchWritesAux] at hb
    obtain ⟨⟨kb, hkb, hkb2⟩, hpos⟩ := mem_flushNonEmpty hb
    obtain ⟨hty, hlen, hrows⟩ := hst kb hkb
    subst hkb2
    refine ⟨hpos, le_of_lt hlen, ?_⟩
    intro r hr
    rw [hty]
    exact hrows r hr
  | cons ev rest ih =>
    intro st hev hst b hb
    cases ev with
    | cancel =>
      simp only [BatchWritesAux] at hb
      obtain ⟨⟨kb, hkb, hkb2⟩, hpos⟩ := mem_flushNonEmpty hb
      obtain ⟨hty, hlen, hrows⟩ := hst kb hkb
      subst hkb2
      refine ⟨hpos, le_of_lt hlen, ?_⟩
      intro r hr
      rw [hty]
      exact hrows r hr
    | diff d =>
      have hPd : P d := hev d (List.mem_cons_self _ _)
      have hev2 : ∀ d2 : Diff, BEvent.diff d2 ∈ rest → P d2 :=
        fun d2 h2 => hev d2 (List.mem_cons_of_mem _ h2)
      have hopen : (openBatchW st d).ty = d.ty
          ∧ (openBatchW st d).rows.length < bs
          ∧ ∀ r ∈ (openBatchW st d).rows, P ⟨d.ty, r⟩ := by
        cases halo : alookup (d.ty, d.row.table.name) st with
        | none =>
          have hob : openBatchW st d = ⟨d.ty, d.row.table, []⟩ := by
            simp only [openBatchW, halo, Option.getD_none]
          rw [hob]
          exact ⟨rfl, lt_of_lt_of_le Nat.zero_lt_one hbs, by simp⟩
        | some b0 =>
          have hob : openBatchW st d = b0 := by
            simp only [openBatchW, halo, Option.getD_some]
          rw [hob]
          exact hst ((d.ty, d.row.table.name), b0) (alookup_mem halo)
      obtain ⟨hoty, holen, horows⟩ := hopen
      by_cases hfull : bs ≤ ((openBatchW st d).rows ++ [d.row]).length
      · rw [BatchWritesAux, if_pos hfull] at hb
        rcases List.mem_cons.mp hb with hbeq | hb
        · subst hbeq
          refine ⟨?_, ?_, ?_⟩
          · simp
          · simp only [List.length_append, List.length_cons, List.length_nil]
            omega
          · intro r hr
            show P ⟨(openBatchW st d).ty, r⟩
            rw [hoty]
            rcases List.mem_append.mp hr with hr | hr
            · exact horows r hr
            · rw [List.mem_singleton] at hr
              subst hr
              exact hPd
        · refine ih _ hev2 ?_ b hb
          intro kb hkb
          rcases mem_aset hkb with hkbeq | hkb2
          · subst hkbeq
            exact ⟨hoty, lt_of_lt_of_le Nat.zero_lt_one hbs, by simp⟩
          · exact hst kb hkb2
      · rw [BatchWritesAux, if_neg hfull] at hb
        refine ih _ hev2 ?_ b hb
        intro kb hkb
        rcases mem_aset hkb with hkbeq | hkb2
        · subst hkbeq
          refine ⟨hoty, ?_, ?_⟩
          · simp only [List.length_append, List.length_cons, List.length_nil] at hfull ⊢
            omega
          · intro r hr
            rcases List.mem_append.mp hr with hr | hr
            · exact horows r hr
            · rw [List.mem_singleton] at hr
              subst hr
              exact hPd
        · exact hst kb hkb2

/-- C2: for WriteBatchSize at least one, every batch emitted by BatchWrites or
BatchTableWrites is non-empty with at most batchSize rows, and every row was
produced by an incoming diff carrying the batch type; for BatchTableWrites run
on diffs of a single table, the batch also carries that table and so do all of
its rows. -/
theorem batcher_emits_wellformed_batches (bs : Nat) (hbs : 1 ≤ bs) (events : List BEvent) :
    (∀ b ∈ BatchWrites bs events, 1 ≤ b.rows.length ∧ b.rows.length ≤ bs
        ∧ ∀ r ∈ b.rows, BEvent.diff ⟨b.ty, r⟩ ∈ events)
      ∧ ∀ t : Table, (∀ d : Diff, BEvent.diff d ∈ events → d.row.table = t) →
          ∀ b ∈ BatchTableWrites bs events, 1 ≤ b.rows.length ∧ b.rows.length ≤ bs
            ∧ (∀ r ∈ b.rows, BEvent.diff ⟨b.ty, r⟩ ∈ events)
            ∧ b.table = t ∧ ∀ r ∈ b.rows, r.table = t := by
  constructor
  · intro b hb
    have hg := batchWritesAux_good (fun d => BEvent.diff d ∈ events) bs hbs events []
      (fun _ h => h) (by intro kb hkb; exact absurd hkb (List.not_mem_nil kb)) b hb
    exact ⟨hg.1, hg.2.1, hg.2.2⟩
  · intro t ht b hb
    have hg := batchTableWritesAux_good (fun d => BEvent.diff d ∈ events) bs hbs events []
      (fun _ h => h) (by intro kb hkb; exact absurd hkb (List.not_mem_nil kb)) b hb
    obtain ⟨h1, h2, h3, d2, hd2, hdty, hdtab⟩ := hg
    refine ⟨h1, h2, h3, ?_, ?_⟩
    · rw [← hdtab]
      exact ht d2 hd2
    · intro r hr
      exact ht ⟨b.ty, r⟩ (h3 r hr)

/-- A concrete row of the customers table. -/
def rowA : Row := ⟨customers, 1, 1⟩

/-- A concrete row of the customers table. -/
def rowB : Row := ⟨customers, 2, 2⟩

/-- A concrete row of the customers table. -/
def rowC : Row := ⟨customers, 3, 3⟩

/-- A concrete insert diff for rowA. -/
def diffA : Diff := ⟨DiffType.Insert, rowA⟩

/-- Three insert diffs for the customers table arriving before channel close. -/
def eventsABC : List BEvent :=
  [BEvent.diff ⟨DiffType.Insert, rowA⟩, BEvent.diff ⟨DiffType.Insert, rowB⟩,
    BEvent.diff ⟨DiffType.Insert, rowC⟩]

theorem batcher_emits_wellformed_batches_witness :
    (1 : Nat) ≤ 2
      ∧ ((∀ b ∈ BatchWrites 2 eventsABC, 1 ≤ b.rows.length ∧ b.rows.length ≤ 2
            ∧ ∀ r ∈ b.rows, BEvent.diff ⟨b.ty, r⟩ ∈ eventsABC)
          ∧ ∀ t : Table, (∀ d : Diff, BEvent.diff d ∈ eventsABC → d.row.table = t) →
              ∀ b ∈ BatchTableWrites 2 eventsABC, 1 ≤ b.rows.length ∧ b.rows.length ≤ 2
                ∧ (∀ r ∈ b.rows, BEvent.diff ⟨b.ty, r⟩ ∈ eventsABC)
                ∧ b.table = t ∧ ∀ r ∈ b.rows, r.table = t) :=
  ⟨by decide, batcher_emits_wellformed_batches 2 (by decide) eventsABC⟩

theorem batchTableWritesAux_cancel_sizes (bs : Nat) (hbs : 1 ≤ bs) :
    ∀ (ds : List Diff) (rest : List BEvent) (st : List (DiffType × Batch)),
      (∀ kb ∈ st, kb.2.rows.length < bs) →
      ∀ b ∈ BatchTableWritesAux bs (ds.map BEvent.diff ++ BEvent.cancel :: rest) st,
        b.rows.length = bs := by
  intro ds
  induction ds with
  | nil =>
    intro rest st _ b hb
    simp only [List.map_nil, List.nil_append, BatchTableWritesAux] at hb
    exact absurd hb (List.not_mem_nil b)
  | cons d ds ih =>
    intro rest st hst b hb
    simp only [List.map_cons, List.cons_append] at hb
    have holen : (openBatch st d).rows.length < bs := by
      cases halo : alookup d.ty st with
      | none =>
        have hob : openBatch st d = ⟨d.ty, d.row.table, []⟩ := by
          simp only [openBatch, halo, Option.getD_none]
        rw [hob]
        exact lt_of_lt_of_le Nat.zero_lt_one hbs
      | some b0 =>
        have hob : openBatch st d = b0 := by
          simp only [openBatch, halo, Option.getD_some]
        rw [hob]
        exact hst (d.ty, b0) (alookup_mem halo)
    by_cases hfull : bs ≤ ((openBatch st d).rows ++ [d.row]).length
    · rw [BatchTableWritesAux, if_pos hfull] at hb
      rcases List.mem_cons.mp hb with hbeq | hb
      · subst hbeq
        simp only [List.length_append, List.length_cons, List.length_nil] at hfull ⊢
        omega
      · refine ih rest _ ?_ b hb
        intro kb hkb
        rcases mem_aset hkb with hkbeq | hkb2
        · subst hkbeq
          exact lt_of_lt_of_le Nat.zero_lt_one hbs
        · exact hst kb hkb2
    · rw [BatchTableWritesAux, if_neg hfull] at hb
      refine ih rest _ ?_ b hb
      intro kb hkb
      rcases mem_aset hkb with hkbeq | hkb2
      · subst hkbeq
        simp only [List.length_append, List.length_cons, List.length_nil] at hfull ⊢
        omega
      · exact hst kb hkb2

/-- C7 counterexample: BatchWrites holding one buffered insert diff observes
cancellation and still emits that unfilled one-row batch. -/
theorem batchWrites_cancel_flush_counterexample :
    BatchWrites 10 [BEvent.diff diffA, BEvent.cancel]
        = [⟨DiffType.Insert, customers, [rowA]⟩]
      ∧ BatchWrites 10 [BEvent.diff diffA, BEvent.cancel] ≠ [] := by
  exact ⟨by decide, by decide⟩

/-- C7 amended: on observing cancellation before input close, BatchTableWrites
emits no further batches, so every batch of such a run is a filled batch of
exactly batchSize rows; BatchWrites instead stops reading but flushes its
non-empty buffers, as the concrete one-diff run shows. -/
theorem batcher_cancel_behaviour (bs : Nat) (hbs : 1 ≤ bs) (ds : List Diff)
    (rest : List BEvent) :
    (∀ b ∈ BatchTableWrites bs (ds.map BEvent.diff ++ BEvent.cancel :: rest),
        b.rows.length = bs)
      ∧ BatchWrites 10 [BEvent.diff diffA, BEvent.cancel]
          = [⟨DiffType.Insert, customers, [rowA]⟩] := by
  constructor
  · exact batchTableWritesAux_cancel_sizes bs hbs ds rest []
      (by intro kb hkb; exact absurd hkb (List.not_mem_nil kb))
  · decide

theorem batcher_cancel_behaviour_witness :
    (1 : Nat) ≤ 2
      ∧ ((∀ b ∈ BatchTableWrites 2
              ([diffA, ⟨DiffType.Insert, rowB⟩, ⟨DiffType.Insert, rowC⟩].map BEvent.diff
                ++ BEvent.cancel :: []), b.rows.length = 2)
          ∧ BatchWrites 10 [BEvent.diff diffA, BEvent.cancel]
              = [⟨DiffType.Insert, customers, [rowA]⟩]) :=
  ⟨by decide, batcher_cancel_behaviour 2 (by decide)
    [diffA, ⟨DiffType.Insert, rowB⟩, ⟨DiffType.Insert, rowC⟩] []⟩

/-- enqueueBatch (batcher.go): before sending a batch it adds the batch row
count to the writes_enqueued counter labelled with the batch table and type. -/
def enqueueBatchAdd (counter : Nat) (batch : Batch) : Nat := counter + batch.rows.length

/-- The writer goroutine of processTable (reader.go): for each batch received
from the batches channel it adds the batch row count to the writes_enqueued
counter labelled with the batch table and type. -/
def writerLoopAdd (counter : Nat) (batch : Batch) : Nat := counter + batch.rows.length

/-- The writes_enqueued counter for one label after a list of batches flows
from the batcher to the writer goroutine: each batch passes through
enqueueBatchAdd when sent and through writerLoopAdd when received. -/
def writesEnqueuedAfter (batches : List Batch) : Nat :=
  batches.foldl (fun c b => writerLoopAdd (enqueueBatchAdd c b) b) 0

/-- C4: a single two-row batch leaves the writes_enqueued counter at four, not
two: the counter is incremented once by enqueueBatch in batcher.go and once
more by the writer goroutine in reader.go, so after n batches it holds twice
the total row count. -/
theorem writesEnqueued_double_count :
    writesEnqueuedAfter [⟨DiffType.Insert, customers, [rowA, rowB]⟩] = 4
      ∧ (Batch.mk DiffType.Insert customers [rowA, rowB]).rows.length = 2
      ∧ writesEnqueuedAfter [⟨DiffType.Insert, customers, [rowA, rowB]⟩] ≠ 2 := by
  exact ⟨rfl, rfl, by decide⟩

/-- A Go error as the supervisor sees it: whether errors.Is finds context
cancellation in it. -/
structure GoErr where
  canceled : Bool
  deriving DecidableEq, Repr

/-- errors.WithStack: wraps the error but preserves its identity for
errors.Is, so it is modelled as the identity. -/
def withStack (e : GoErr) : GoErr := e

/-- The tail of processTable (reader.go) after the task group returns: on a
group error, log an error line unless errors.Is finds context cancellation,
then return the wrapped error in every error case; on no error, return nil.
First component: whether an error line was logged; second: the returned
error. -/
def processTableFinish (groupErr : Option GoErr) : Bool × Option GoErr :=
  match groupErr with
  | some err => (!err.canceled, some (withStack err))
  | none => (false, none)

/-- The loop of ProcessTables (reader.go): run processTable per table until
the channel closes and return the first non-nil result, wrapped. -/
def ProcessTablesLoop : List (Option GoErr) → Option GoErr
  | [] => none
  | res :: rest =>
    match (processTableFinish res).2 with
    | some err => some (withStack err)
    | none => ProcessTablesLoop rest

/-- C5 counterexample: when the only group error is context cancellation,
processTable does not log it, but it does not return nil either, and
ProcessTables propagates the error instead of returning nil. -/
theorem processTable_cancellation_counterexample :
    (processTableFinish (some ⟨true⟩)).1 = false
      ∧ (processTableFinish (some ⟨true⟩)).2 ≠ none
      ∧ ProcessTablesLoop [some ⟨true⟩] ≠ none := by
  decide

/-- C5 amended: when the pipeline terminates with context cancellation as the
only error, processTable does not log an error line, yet it returns the
cancellation error to its caller, and ProcessTables propagates that error
rather than returning nil. -/
theorem processTable_swallows_cancellation_log_only (e : GoErr) (he : e.canceled = true) :
    (processTableFinish (some e)).1 = false
      ∧ (processTableFinish (some e)).2 = some e
      ∧ ProcessTablesLoop [some e] = some e := by
  refine ⟨?_, rfl, rfl⟩
  simp [processTableFinish, he]

theorem processTable_swallows_cancellation_log_only_witness :
    (GoErr.mk true).canceled = true
      ∧ ((processTableFinish (some ⟨true⟩)).1 = false
          ∧ (processTableFinish (some ⟨true⟩)).2 = some ⟨true⟩
          ∧ ProcessTablesLoop [some ⟨true⟩] = some ⟨true⟩) :=
  ⟨rfl, processTable_swallows_cancellation_log_only ⟨true⟩ rfl⟩

/-- The chunker goroutine of processTable (reader.go): when the reader-limiter
acquisition fails it returns at once, without closing the chunks channel; when
it succeeds, GenerateTableChunks runs and close(chunks) is executed before
returning, whatever the chunking result was. First component: whether
close(chunks) was executed; second: the returned error. -/
def chunkerTask (acquireErr : Option GoErr) (genErr : Option GoErr) : Bool × Option GoErr :=
  match acquireErr with
  | some e => (false, some (withStack e))
  | none => (true, genErr)

/-- The differ goroutine of processTable (reader.go): for each chunk it
acquires a reader permit and returns at once, without closing the diffs
channel, if the acquisition fails; after the chunk loop it waits on the
sub-group and returns without closing diffs if that wait fails; close(diffs)
runs only on the success path. The list holds the per-chunk acquisition
outcomes and the second argument the sub-group result. First component:
whether close(diffs) was executed. -/
def differTask : List (Option GoErr) → Option GoErr → Bool × Option GoErr
  | [], none => (true, none)
  | [], some e => (false, some (withStack e))
  | none :: rest, waitErr => differTask rest waitErr
  | some e :: _, _ => (false, some (withStack e))

/-- The batcher goroutine of processTable (reader.go): BatchTableWrites always
returns nil or nil after cancellation, and close(batches) runs unconditionally
after it returns. First component: whether close(batches) was executed. -/
def batcherTask : Bool × Option GoErr := (true, none)

/-- C6: on failure paths the producing stages return without closing their
output channels: a failed reader-limiter acquisition leaves the chunks channel
open, and a failed per-chunk acquisition or sub-group wait leaves the diffs
channel open; only the batches channel is closed on every termination. -/
theorem channels_not_closed_on_failure_paths :
    (chunkerTask (some ⟨true⟩) none).1 = false
      ∧ (differTask [some ⟨true⟩] none).1 = false
      ∧ (differTask [] (some ⟨false⟩)).1 = false
      ∧ (chunkerTask none (some ⟨false⟩)).1 = true
      ∧ batcherTask.1 = true := by
  decide

/-- Placeholder for the external semaphore.Weighted; a missing value stands
for a nil pointer. -/
structure Weighted where
  size : Nat
  deriving DecidableEq, Repr

/-- Calling Acquire on a possibly nil semaphore.Weighted pointer: a nil
receiver faults (none); a real semaphore proceeds. -/
def weightedAcquire : Option Weighted → Option Unit
  | none => none
  | some _ => some ()

/-- The readerLimiter argument that ProcessTables (reader.go) passes to
processTable for every table: the literal nil. -/
def processTablesReaderLimiter : Option Weighted := none

/-- The first reader-limiter acquisition performed by the chunker goroutine
inside processTable, applied to the limiter processTable was given. -/
def processTableChunkerAcquire (readerLimiter : Option Weighted) : Option Unit :=
  weightedAcquire readerLimiter

/-- C9: ProcessTables hands processTable a nil reader limiter, so the very
first reader-limiter acquisition of the chunker task operates on a nil
semaphore and faults. -/
theorem processTables_nil_reader_limiter :
    processTablesReaderLimiter = none
      ∧ processTableChunkerAcquire processTablesReaderLimiter = none :=
  ⟨rfl, rfl⟩

end Cloner
